import Mathlib

/-!
Verification of the string hash table implementation in `stringhashtable.c`:
a fixed-bucket-count, separately-chained, string-keyed hash table with
bookkeeping counters `different_entries` and `collisions`.

The embedding is shallow: chains (C singly-linked lists of
`hashtable_entry`) become Lean lists, the bucket array becomes a list of
chains, C `unsigned int` arithmetic is `Nat` with an explicit `% 2^32`
where overflow is reachable (the hash accumulator), and the C functions
`hashtable_gethash`, `hashtable_newhashtable`, `hashtable_insert`,
`hashtable_delete`, `hashtable_get` become the Lean functions of the same
names.  NULL-pointer arguments are modelled with `Option` wrappers
(`hashtable_insert_c`, `hashtable_delete_c`, `hashtable_get_c`).
-/

namespace StringHashTable

/-- `2^32`, the modulus of C `unsigned int` arithmetic. -/
def UINT_MOD : Nat := 4294967296

/-- One entry of a bucket chain: `char* key` and `unsigned int val`.
The `next` pointer of the C struct is represented by the position in the
Lean list that models the chain. -/
structure hashtable_entry where
  key : String
  val : Nat
  deriving Repr, DecidableEq

/-- The hash table: bucket count `size`, the two counters, and the bucket
array `table`; each bucket holds its chain head-first. -/
structure hashtable where
  size : Nat
  different_entries : Nat
  collisions : Nat
  table : List (List hashtable_entry)
  deriving Repr, DecidableEq

/-- `hashtable_gethash` from the source: Horner/djb2-style rolling hash.
Each step computes `(int)(*ch) + (hash << 5) + hash` in C `unsigned int`
arithmetic — i.e. `c + hash*32 + hash` reduced mod `2^32` — and then takes
it `% hashtable_size`.  The separate mod-`2^32` wraps of the shift and the
two additions collapse into the single `% UINT_MOD` written here. -/
def hashtable_gethash (hashtable_size : Nat) (key : String) : Nat :=
  key.data.foldl
    (fun hash ch => ((ch.toNat + hash * 32 + hash) % UINT_MOD) % hashtable_size) 0

/-- `hashtable_newhashtable` from the source: `NULL` (here `none`) when
`size < 2`, otherwise a table of `size` empty buckets with both counters
zero.  (Allocation failure aborts the process in C and is not modelled.) -/
def hashtable_newhashtable (size : Nat) : Option hashtable :=
  if size < 2 then none
  else some { size := size, different_entries := 0, collisions := 0,
              table := List.replicate size [] }

/-- The chain walk of `hashtable_insert` on a non-empty chain: scan for a
`strcmp`-equal key; on a match overwrite that entry's value in place,
otherwise append a fresh entry at the tail.  Returns the new chain and the
C code's `found` flag. -/
def chain_insert : List hashtable_entry → String → Nat →
    List hashtable_entry × Bool
  | [], key, val => ([⟨key, val⟩], false)
  | e :: rest, key, val =>
    if e.key == key then (⟨e.key, val⟩ :: rest, true)
    else
      let r := chain_insert rest key val
      (e :: r.1, r.2)

/-- `hashtable_insert` from the source, acting on a non-NULL table and
key: hash the key; if the bucket is empty install the new entry as sole
chain member and increment `different_entries`; otherwise walk the chain —
update in place if the key is found (no counter change), else append at
the tail and increment `collisions`. -/
def hashtable_insert (htable : hashtable) (key : String) (val : Nat) :
    hashtable :=
  let hash := hashtable_gethash htable.size key
  let chain := htable.table.getD hash []
  if chain.isEmpty then
    { htable with
      table := htable.table.set hash [⟨key, val⟩],
      different_entries := htable.different_entries + 1 }
  else
    let r := chain_insert chain key val
    { htable with
      table := htable.table.set hash r.1,
      collisions := if r.2 then htable.collisions else htable.collisions + 1 }

/-- The chain walk of `hashtable_delete`: remove the first `strcmp`-equal
entry, returning the new chain and `some` of the removed entry's value
(`none` when the key is absent). -/
def chain_delete : List hashtable_entry → String →
    List hashtable_entry × Option Nat
  | [], _ => ([], none)
  | e :: rest, key =>
    if e.key == key then (rest, some e.val)
    else
      let r := chain_delete rest key
      (e :: r.1, r.2)

/-- `hashtable_delete` from the source, acting on a non-NULL table and
key: hash; an empty bucket or an unsuccessful chain walk returns 0 with
the table unchanged; otherwise the matching entry is unlinked (sole
member: bucket cleared, `different_entries--`; head with successors: next
promoted, `collisions--`; mid-chain: spliced out, `collisions--`) and its
value returned. -/
def hashtable_delete (htable : hashtable) (key : String) :
    hashtable × Nat :=
  let hash := hashtable_gethash htable.size key
  let chain := htable.table.getD hash []
  match chain_delete chain key with
  | (_, none) => (htable, 0)
  | (chain2, some v) =>
    if chain2.isEmpty then
      ({ htable with
         table := htable.table.set hash [],
         different_entries := htable.different_entries - 1 }, v)
    else
      ({ htable with
         table := htable.table.set hash chain2,
         collisions := htable.collisions - 1 }, v)

/-- The chain walk of `hashtable_get`: first `strcmp`-equal entry,
head-to-tail. -/
def chain_find : List hashtable_entry → String → Option hashtable_entry
  | [], _ => none
  | e :: rest, key => if e.key == key then some e else chain_find rest key

/-- `hashtable_get` from the source, acting on a non-NULL table and key:
hash, then walk the bucket's chain head-to-tail and return the first
matching entry (`none` when absent). -/
def hashtable_get (htable : hashtable) (key : String) :
    Option hashtable_entry :=
  chain_find (htable.table.getD (hashtable_gethash htable.size key) []) key

/-- `hashtable_insert` including the C NULL checks: a NULL table or key
returns NULL (no entry) and mutates nothing; otherwise the table is
updated and the inserted/updated entry — whose key equals `key` and whose
value is `val` in every branch of the C code — is returned. -/
def hashtable_insert_c (htable : Option hashtable) (key : Option String)
    (val : Nat) : Option hashtable × Option hashtable_entry :=
  match htable, key with
  | none, _ => (none, none)
  | some t, none => (some t, none)
  | some t, some k => (some (hashtable_insert t k val), some ⟨k, val⟩)

/-- `hashtable_delete` including the C NULL checks: a NULL table or key
returns 0 and mutates nothing. -/
def hashtable_delete_c (htable : Option hashtable) (key : Option String) :
    Option hashtable × Nat :=
  match htable, key with
  | none, _ => (none, 0)
  | some t, none => (some t, 0)
  | some t, some k =>
    let r := hashtable_delete t k
    (some r.1, r.2)

/-- `hashtable_get` including the C NULL checks: a NULL table or key
returns NULL. -/
def hashtable_get_c (htable : Option hashtable) (key : Option String) :
    Option hashtable_entry :=
  match htable, key with
  | none, _ => none
  | some _, none => none
  | some t, some k => hashtable_get t k

/-! ### Derived notions used by the claims -/

/-- Total number of live entries across all buckets. -/
def entriesCount (t : hashtable) : Nat := (t.table.map List.length).sum

/-- Number of non-empty buckets. -/
def nonemptyList {α : Type} (l : List (List α)) : Nat :=
  (l.filter (fun c => !c.isEmpty)).length

/-- Number of non-empty buckets of a table. -/
def nonemptyCount (t : hashtable) : Nat := nonemptyList t.table

/-- Structural well-formedness: the bucket array has exactly `size`
entries and `size ≥ 2`, as guaranteed by `hashtable_newhashtable`. -/
def WF (t : hashtable) : Prop :=
  t.table.length = t.size ∧ 2 ≤ t.size

/-- The counter invariant of the spec: `different_entries` is the number
of non-empty buckets and `collisions` is the entry total minus that
(stated addition-side to avoid truncated subtraction). -/
def Inv (t : hashtable) : Prop :=
  t.different_entries = nonemptyCount t ∧
  t.collisions + nonemptyCount t = entriesCount t

/-- Whether a chain holds an entry with the given key. -/
def chain_contains (c : List hashtable_entry) (key : String) : Bool :=
  c.any (fun e => e.key == key)

/-- Overwrite, in place, the value of the first entry with the given key. -/
def chain_update : List hashtable_entry → String → Nat →
    List hashtable_entry
  | [], _, _ => []
  | e :: rest, key, val =>
    if e.key == key then ⟨e.key, val⟩ :: rest
    else e :: chain_update rest key val

/-- A mutating operation on the table: insert or delete. -/
inductive Op where
  | ins (key : String) (val : Nat)
  | del (key : String)
  deriving Repr, DecidableEq

/-- Apply one operation (the state part only). -/
def applyOp (t : hashtable) : Op → hashtable
  | .ins k v => hashtable_insert t k v
  | .del k => (hashtable_delete t k).1

/-- Apply a sequence of operations left to right. -/
def applyOps (t : hashtable) (ops : List Op) : hashtable :=
  ops.foldl applyOp t

/-- The pure Horner fold the spec describes for the hash function:
`h = (c + h*33) mod m` after every character, with no intermediate
mod-`2^32` reduction. -/
def specHornerHash (m : Nat) (key : String) : Nat :=
  key.data.foldl (fun h c => (c.toNat + h * 33) % m) 0

/-- The key `k` is stored in the table (an entry with key `k` sits in the
chain of `k`'s bucket). -/
def hasKey (t : hashtable) (k : String) : Prop :=
  chain_contains (t.table.getD (hashtable_gethash t.size k) []) k = true

/-- Insert a list of (key, value) pairs left to right. -/
def insertList (t : hashtable) (ps : List (String × Nat)) : hashtable :=
  ps.foldl (fun acc p => hashtable_insert acc p.1 p.2) t

/-! ### List-level helper lemmas -/

theorem getD_set_self {α : Type} (l : List α) (i : Nat) (a d : α)
    (h : i < l.length) : (l.set i a).getD i d = a := by
  induction l generalizing i with
  | nil => simp at h
  | cons x xs ih =>
    cases i with
    | zero => rfl
    | succ j => exact ih j (by simpa using h)

theorem getD_set_ne {α : Type} (l : List α) (i j : Nat) (a d : α)
    (h : i ≠ j) : (l.set i a).getD j d = l.getD j d := by
  induction l generalizing i j with
  | nil => rfl
  | cons x xs ih =>
    cases i with
    | zero =>
      cases j with
      | zero => exact absurd rfl h
      | succ j2 => rfl
    | succ i2 =>
      cases j with
      | zero => rfl
      | succ j2 => exact ih i2 j2 (fun hc => h (by rw [hc]))

theorem nonemptyList_cons {α : Type} (c : List α) (l : List (List α)) :
    nonemptyList (c :: l) = (if c.isEmpty then 0 else 1) + nonemptyList l := by
  cases hc : c.isEmpty with
  | true => simp [nonemptyList, List.filter_cons, hc]
  | false =>
    simp [nonemptyList, List.filter_cons, hc]
    omega

theorem ite_isEmpty_le_length {α : Type} (x : List α) :
    (if x.isEmpty then 0 else 1) ≤ x.length := by
  cases x with
  | nil => simp
  | cons a as => simp

theorem ite_isEmpty_le_one {α : Type} (x : List α) :
    (if x.isEmpty then 0 else 1) ≤ 1 := by
  split
  · omega
  · omega

theorem ite_of_not_isEmpty {α : Type} {x : List α} (hx : x.isEmpty = false) :
    (if x.isEmpty then 0 else 1) = 1 := by
  rw [hx]
  rfl

theorem sum_map_length_set {α : Type} (l : List (List α)) (i : Nat)
    (c : List α) (h : i < l.length) :
    ((l.set i c).map List.length).sum + (l.getD i []).length
      = (l.map List.length).sum + c.length := by
  induction l generalizing i with
  | nil => simp at h
  | cons x xs ih =>
    cases i with
    | zero => simp; omega
    | succ j =>
      have := ih j (by simpa using h)
      simp only [List.set, List.map_cons, List.sum_cons, List.getD_cons_succ]
      omega

theorem nonemptyList_set {α : Type} (l : List (List α)) (i : Nat)
    (c : List α) (h : i < l.length) :
    nonemptyList (l.set i c) + (if (l.getD i []).isEmpty then 0 else 1)
      = nonemptyList l + (if c.isEmpty then 0 else 1) := by
  induction l generalizing i with
  | nil => simp at h
  | cons x xs ih =>
    cases i with
    | zero =>
      simp only [List.set, nonemptyList_cons, List.getD_cons_zero]
      omega
    | succ j =>
      have := ih j (by simpa using h)
      simp only [List.set, nonemptyList_cons, List.getD_cons_succ]
      omega

theorem nonemptyList_pos {α : Type} (l : List (List α)) (i : Nat)
    (h : (l.getD i []).isEmpty = false) : 1 ≤ nonemptyList l := by
  induction l generalizing i with
  | nil => simp at h
  | cons x xs ih =>
    cases i with
    | zero =>
      simp only [List.getD_cons_zero] at h
      have h1 := ite_of_not_isEmpty h
      simp only [nonemptyList_cons]
      omega
    | succ j =>
      have := ih j (by simpa using h)
      simp only [nonemptyList_cons]
      omega

theorem nonemptyList_le_sum {α : Type} (l : List (List α)) :
    nonemptyList l ≤ (l.map List.length).sum := by
  induction l with
  | nil => simp [nonemptyList]
  | cons x xs ih =>
    have h1 := ite_isEmpty_le_length x
    simp only [nonemptyList_cons, List.map_cons, List.sum_cons]
    omega

theorem nonemptyList_add_one_le_sum {α : Type} (l : List (List α)) (i : Nat)
    (h : 2 ≤ (l.getD i []).length) :
    nonemptyList l + 1 ≤ (l.map List.length).sum := by
  induction l generalizing i with
  | nil => simp at h
  | cons x xs ih =>
    cases i with
    | zero =>
      simp only [List.getD_cons_zero] at h
      have h1 := ite_isEmpty_le_one x
      have h2 := nonemptyList_le_sum xs
      simp only [nonemptyList_cons, List.map_cons, List.sum_cons]
      omega
    | succ j =>
      have := ih j (by simpa using h)
      have h1 := ite_isEmpty_le_length x
      simp only [nonemptyList_cons, List.map_cons, List.sum_cons]
      omega

/-! ### Chain-level lemmas -/

theorem chain_contains_nil (k : String) : chain_contains [] k = false := rfl

theorem chain_contains_cons (e : hashtable_entry)
    (rest : List hashtable_entry) (k : String) :
    chain_contains (e :: rest) k = (e.key == k || chain_contains rest k) := by
  simp [chain_contains]

theorem chain_insert_eq (c : List hashtable_entry) (k : String) (v : Nat) :
    chain_insert c k v =
      (if chain_contains c k then chain_update c k v else c ++ [⟨k, v⟩],
       chain_contains c k) := by
  induction c with
  | nil => simp [chain_insert, chain_contains, chain_update]
  | cons e rest ih =>
    by_cases he : e.key == k
    · simp [chain_insert, chain_update, chain_contains_cons, he]
    · by_cases hc : chain_contains rest k
      · simp [chain_insert, chain_update, chain_contains_cons, he, hc, ih]
      · simp [chain_insert, chain_update, chain_contains_cons, he, hc, ih]

theorem chain_update_length (c : List hashtable_entry) (k : String) (v : Nat) :
    (chain_update c k v).length = c.length := by
  induction c with
  | nil => rfl
  | cons e rest ih =>
    by_cases he : e.key == k
    · simp [chain_update, he]
    · simp [chain_update, he, ih]

theorem chain_update_keys (c : List hashtable_entry) (k : String) (v : Nat) :
    (chain_update c k v).map hashtable_entry.key
      = c.map hashtable_entry.key := by
  induction c with
  | nil => rfl
  | cons e rest ih =>
    by_cases he : e.key == k
    · simp [chain_update, he]
    · simp [chain_update, he, ih]

theorem chain_contains_update (c : List hashtable_entry) (k k' : String)
    (v : Nat) :
    chain_contains (chain_update c k v) k' = chain_contains c k' := by
  induction c with
  | nil => rfl
  | cons e rest ih =>
    by_cases he : e.key == k
    · simp [chain_update, he, chain_contains_cons]
    · simp [chain_update, he, chain_contains_cons, ih]

theorem chain_contains_append_one (c : List hashtable_entry)
    (e : hashtable_entry) (k : String) :
    chain_contains (c ++ [e]) k = (chain_contains c k || e.key == k) := by
  simp [chain_contains]

theorem chain_find_update_self (c : List hashtable_entry) (k : String)
    (v : Nat) (h : chain_contains c k = true) :
    chain_find (chain_update c k v) k = some ⟨k, v⟩ := by
  induction c with
  | nil => simp [chain_contains] at h
  | cons e rest ih =>
    by_cases he : e.key == k
    · have hk : e.key = k := by simpa using he
      simp [chain_update, chain_find, he, hk]
    · have h2 : chain_contains rest k = true := by
        simpa [chain_contains_cons, he] using h
      simp [chain_update, chain_find, he, ih h2]

theorem chain_delete_not_contains (c : List hashtable_entry) (k : String)
    (h : chain_contains c k = false) : chain_delete c k = (c, none) := by
  induction c with
  | nil => rfl
  | cons e rest ih =>
    have he : (e.key == k) = false := by
      simp [chain_contains_cons] at h
      simp [h.1]
    have hr : chain_contains rest k = false := by
      simp [chain_contains_cons] at h
      simp [h.2]
    simp [chain_delete, he, ih hr]

theorem chain_delete_some_length (c : List hashtable_entry) (k : String)
    (c2 : List hashtable_entry) (v : Nat)
    (h : chain_delete c k = (c2, some v)) : c2.length + 1 = c.length := by
  induction c generalizing c2 with
  | nil => simp [chain_delete] at h
  | cons e rest ih =>
    by_cases he : e.key == k
    · simp [chain_delete, he] at h
      simp [← h.1]
    · simp [chain_delete, he] at h
      have hrest : chain_delete rest k = ((chain_delete rest k).1, some v) := by
        rw [← h.2]
      have := ih (chain_delete rest k).1 hrest
      simp [← h.1]
      omega

theorem chain_delete_decomp (pre : List hashtable_entry)
    (e : hashtable_entry) (suf : List hashtable_entry) (k : String)
    (he : (e.key == k) = true)
    (hpre : ∀ x ∈ pre, (x.key == k) = false) :
    chain_delete (pre ++ e :: suf) k = (pre ++ suf, some e.val) := by
  induction pre with
  | nil => simp [chain_delete, he]
  | cons x xs ih =>
    have hx : (x.key == k) = false := hpre x (List.mem_cons_self x xs)
    have ih2 := ih (fun y hy => hpre y (List.mem_cons_of_mem x hy))
    simp [chain_delete, hx, ih2]

/-! ### Hash-function lemmas -/

theorem char_toNat_lt (c : Char) : c.toNat < 1114112 := by
  rcases c.valid with h | h
  · exact Nat.lt_trans h (by decide)
  · exact h.2

theorem gethash_lt (m : Nat) (key : String) (hm : 0 < m) :
    hashtable_gethash m key < m := by
  unfold hashtable_gethash
  have main : ∀ (l : List Char) (h : Nat), h < m →
      l.foldl (fun hash ch =>
        ((ch.toNat + hash * 32 + hash) % UINT_MOD) % m) h < m := by
    intro l
    induction l with
    | nil => intro h hh; exact hh
    | cons ch rest ih =>
      intro h hh
      exact ih _ (Nat.mod_lt _ hm)
  exact main key.data 0 hm

theorem gethash_eq_spec (m : Nat) (key : String) (hm : 0 < m)
    (hle : m ≤ 67108864) :
    hashtable_gethash m key = specHornerHash m key := by
  unfold hashtable_gethash specHornerHash
  have main : ∀ (l : List Char) (h : Nat), h < m →
      l.foldl (fun hash ch =>
          ((ch.toNat + hash * 32 + hash) % UINT_MOD) % m) h
        = l.foldl (fun hash ch => (ch.toNat + hash * 33) % m) h := by
    intro l
    induction l with
    | nil => intro h hh; rfl
    | cons ch rest ih =>
      intro h hh
      have hch := char_toNat_lt ch
      have heq : ch.toNat + h * 32 + h = ch.toNat + h * 33 := by ring
      have hlt : ch.toNat + h * 32 + h < UINT_MOD := by
        unfold UINT_MOD
        omega
      simp only [List.foldl_cons]
      rw [Nat.mod_eq_of_lt hlt, heq]
      exact ih _ (Nat.mod_lt _ hm)
  exact main key.data 0 hm

theorem gethash_empty (m : Nat) : hashtable_gethash m "" = 0 := rfl

/-! ### Characterizations of insert and delete -/

theorem insert_char (t : hashtable) (k : String) (v : Nat) :
    hashtable_insert t k v =
      { size := t.size,
        different_entries :=
          if (t.table.getD (hashtable_gethash t.size k) []).isEmpty
          then t.different_entries + 1 else t.different_entries,
        collisions :=
          if (t.table.getD (hashtable_gethash t.size k) []).isEmpty
             || chain_contains (t.table.getD (hashtable_gethash t.size k) []) k
          then t.collisions else t.collisions + 1,
        table := t.table.set (hashtable_gethash t.size k)
          (if (t.table.getD (hashtable_gethash t.size k) []).isEmpty
           then [⟨k, v⟩]
           else if chain_contains (t.table.getD (hashtable_gethash t.size k) []) k
           then chain_update (t.table.getD (hashtable_gethash t.size k) []) k v
           else (t.table.getD (hashtable_gethash t.size k) []) ++ [⟨k, v⟩]) } := by
  have hgd : t.table.getD (hashtable_gethash t.size k) []
      = (t.table[hashtable_gethash t.size k]?).getD [] :=
    List.getD_eq_getElem?_getD _ _ _
  cases he : (t.table.getD (hashtable_gethash t.size k) []).isEmpty with
  | true =>
    have hnil : t.table.getD (hashtable_gethash t.size k) [] = [] :=
      List.isEmpty_eq_true.mp he
    simp [hashtable_insert, he]
    rw [← hgd]
    exact hnil
  | false =>
    have hne : t.table.getD (hashtable_gethash t.size k) [] ≠ [] :=
      List.isEmpty_eq_false.mp he
    have hne2 : (t.table[hashtable_gethash t.size k]?).getD []
        ≠ ([] : List hashtable_entry) := by
      rw [← hgd]; exact hne
    cases hc : chain_contains (t.table.getD (hashtable_gethash t.size k) [])
        k with
    | true =>
      have hc2 : chain_contains ((t.table[hashtable_gethash t.size k]?).getD [])
          k = true := by
        rw [← hgd]; exact hc
      simp [hashtable_insert, he, hc, chain_insert_eq, hne2, hc2]
    | false =>
      have hc2 : chain_contains ((t.table[hashtable_gethash t.size k]?).getD [])
          k = false := by
        rw [← hgd]; exact hc
      simp [hashtable_insert, he, hc, chain_insert_eq, hne2, hc2]

theorem delete_not_found (t : hashtable) (k : String)
    (h : chain_contains (t.table.getD (hashtable_gethash t.size k) []) k
           = false) :
    hashtable_delete t k = (t, 0) := by
  simp only [hashtable_delete, chain_delete_not_contains _ _ h]

theorem delete_found (t : hashtable) (k : String)
    (c2 : List hashtable_entry) (v : Nat)
    (h : chain_delete (t.table.getD (hashtable_gethash t.size k) []) k
           = (c2, some v)) :
    hashtable_delete t k =
      (if c2.isEmpty
       then { t with
              table := t.table.set (hashtable_gethash t.size k) [],
              different_entries := t.different_entries - 1 }
       else { t with
              table := t.table.set (hashtable_gethash t.size k) c2,
              collisions := t.collisions - 1 }, v) := by
  cases hc : c2.isEmpty with
  | true => simp only [hashtable_delete, h, hc, if_true]
  | false =>
    simp only [hashtable_delete, h, hc, if_false]
    rfl

theorem delete_found_sole (t : hashtable) (k : String) (v : Nat)
    (h : chain_delete (t.table.getD (hashtable_gethash t.size k) []) k
           = ([], some v)) :
    hashtable_delete t k =
      ({ t with
         table := t.table.set (hashtable_gethash t.size k) [],
         different_entries := t.different_entries - 1 }, v) := by
  rw [delete_found t k [] v h]
  rfl

theorem delete_found_more (t : hashtable) (k : String)
    (c2 : List hashtable_entry) (v : Nat)
    (h : chain_delete (t.table.getD (hashtable_gethash t.size k) []) k
           = (c2, some v))
    (hne : c2.isEmpty = false) :
    hashtable_delete t k =
      ({ t with
         table := t.table.set (hashtable_gethash t.size k) c2,
         collisions := t.collisions - 1 }, v) := by
  rw [delete_found t k c2 v h, hne]
  rfl

/-! ### Preservation of well-formedness and the counter invariant -/

theorem WF_insert (t : hashtable) (k : String) (v : Nat) (hWF : WF t) :
    WF (hashtable_insert t k v) := by
  rw [insert_char]
  unfold WF at hWF ⊢
  simpa using hWF

theorem isEmpty_false_of_length {α : Type} (l : List α) (h : l.length ≠ 0) :
    l.isEmpty = false := by
  cases l with
  | nil => simp at h
  | cons a as => rfl

theorem length_ne_zero_of_isEmpty_false {α : Type} (l : List α)
    (h : l.isEmpty = false) : l.length ≠ 0 := by
  cases l with
  | nil => simp at h
  | cons a as => simp

theorem not_eq_true_of_eq_false {b : Bool} (h : b = false) : ¬ b = true := by
  rw [h]
  exact Bool.false_ne_true

theorem if_true_eq {α : Sort 1} (a b : α) :
    (if true = true then a else b) = a := rfl

theorem if_false_eq {α : Sort 1} (a b : α) :
    (if false = true then a else b) = b := rfl

theorem Inv_insert (t : hashtable) (k : String) (v : Nat) (hWF : WF t)
    (hInv : Inv t) : Inv (hashtable_insert t k v) := by
  obtain ⟨hlen, hsz⟩ := hWF
  obtain ⟨hde, hcol⟩ := hInv
  unfold nonemptyCount at hde
  unfold nonemptyCount entriesCount at hcol
  have hhlt : hashtable_gethash t.size k < t.table.length := by
    rw [hlen]
    exact gethash_lt _ _ (by omega)
  rw [insert_char]
  unfold Inv nonemptyCount entriesCount
  dsimp only
  set i := hashtable_gethash t.size k with hi
  set c := t.table.getD i [] with hch
  cases he : c.isEmpty with
  | true =>
    have hnil := List.isEmpty_eq_true.mp he
    have hsum := sum_map_length_set t.table i [⟨k, v⟩] hhlt
    have hne := nonemptyList_set t.table i [⟨k, v⟩] hhlt
    rw [← hch, hnil] at hsum hne
    simp only [List.length_nil, List.length_cons] at hsum
    simp only [List.isEmpty_nil, List.isEmpty_cons, eq_self_iff_true,
      Bool.false_eq_true, if_true, if_false] at hne
    simp only [eq_self_iff_true, Bool.false_eq_true, Bool.true_or,
      Bool.false_or, if_true, if_false]
    omega
  | false =>
    have hnc := not_eq_true_of_eq_false he
    cases hc : chain_contains c k with
    | true =>
      have hup := chain_update_length c k v
      have hupe : (chain_update c k v).isEmpty = false := by
        apply isEmpty_false_of_length
        rw [hup]
        exact length_ne_zero_of_isEmpty_false c he
      have hsum := sum_map_length_set t.table i (chain_update c k v) hhlt
      have hne := nonemptyList_set t.table i (chain_update c k v) hhlt
      rw [← hch] at hsum hne
      rw [hup] at hsum
      rw [if_neg hnc, if_neg (not_eq_true_of_eq_false hupe)] at hne
      simp only [eq_self_iff_true, Bool.false_eq_true, Bool.true_or,
        Bool.false_or, if_true, if_false]
      omega
    | false =>
      have hape : (c ++ [(⟨k, v⟩ : hashtable_entry)]).isEmpty = false := by
        apply isEmpty_false_of_length
        simp
      have hsum := sum_map_length_set t.table i (c ++ [⟨k, v⟩]) hhlt
      have hne := nonemptyList_set t.table i (c ++ [⟨k, v⟩]) hhlt
      rw [← hch] at hsum hne
      simp only [List.length_append, List.length_cons, List.length_nil] at hsum
      rw [if_neg hnc, if_neg (not_eq_true_of_eq_false hape)] at hne
      simp only [eq_self_iff_true, Bool.false_eq_true, Bool.true_or,
        Bool.false_or, if_true, if_false]
      omega

theorem WF_delete (t : hashtable) (k : String) (hWF : WF t) :
    WF (hashtable_delete t k).1 := by
  cases hcd : chain_delete (t.table.getD (hashtable_gethash t.size k) []) k
    with
  | mk c2 r =>
    cases r with
    | none =>
      simp only [hashtable_delete, hcd]
      exact hWF
    | some v =>
      rw [delete_found t k c2 v hcd]
      unfold WF at hWF ⊢
      cases hc : c2.isEmpty with
      | true => simpa using hWF
      | false => simpa [hc] using hWF

theorem Inv_delete (t : hashtable) (k : String) (hWF : WF t)
    (hInv : Inv t) : Inv (hashtable_delete t k).1 := by
  obtain ⟨hlen, hsz⟩ := hWF
  have hhlt : hashtable_gethash t.size k < t.table.length := by
    rw [hlen]
    exact gethash_lt _ _ (by omega)
  cases hcd : chain_delete (t.table.getD (hashtable_gethash t.size k) []) k
    with
  | mk c2 r =>
    cases r with
    | none =>
      simp only [hashtable_delete, hcd]
      exact hInv
    | some v =>
      obtain ⟨hde, hcol⟩ := hInv
      unfold nonemptyCount at hde
      unfold nonemptyCount entriesCount at hcol
      have hlen2 := chain_delete_some_length _ _ _ _ hcd
      cases hc : c2.isEmpty with
      | true =>
        have hc2nil := List.isEmpty_eq_true.mp hc
        subst hc2nil
        rw [delete_found_sole t k v hcd]
        dsimp only
        unfold Inv nonemptyCount entriesCount
        dsimp only
        set i := hashtable_gethash t.size k with hi
        set c := t.table.getD i [] with hch
        have hclen1 : c.length = 1 := by
          simpa using hlen2.symm
        have hsum := sum_map_length_set t.table i [] hhlt
        have hne := nonemptyList_set t.table i [] hhlt
        rw [← hch] at hsum hne
        have hce : c.isEmpty = false := isEmpty_false_of_length c (by omega)
        rw [hclen1] at hsum
        simp only [List.length_nil] at hsum
        rw [if_neg (not_eq_true_of_eq_false hce)] at hne
        simp only [List.isEmpty_nil, eq_self_iff_true, if_true] at hne
        omega
      | false =>
        rw [delete_found_more t k c2 v hcd hc]
        dsimp only
        unfold Inv nonemptyCount entriesCount
        dsimp only
        set i := hashtable_gethash t.size k with hi
        set c := t.table.getD i [] with hch
        have hc2len : c2.length ≠ 0 := length_ne_zero_of_isEmpty_false c2 hc
        have hclen : 2 ≤ c.length := by omega
        have hclen' : 2 ≤ (t.table.getD i []).length := by
          rw [← hch]
          exact hclen
        have hcolpos := nonemptyList_add_one_le_sum t.table i hclen'
        have hsum := sum_map_length_set t.table i c2 hhlt
        have hne := nonemptyList_set t.table i c2 hhlt
        rw [← hch] at hsum hne
        have hce : c.isEmpty = false := isEmpty_false_of_length c (by omega)
        rw [if_neg (not_eq_true_of_eq_false hce),
          if_neg (not_eq_true_of_eq_false hc)] at hne
        omega

/-! ### Reachable tables -/

theorem sum_replicate_nil {α : Type} (n : Nat) :
    ((List.replicate n ([] : List α)).map List.length).sum = 0 := by
  induction n with
  | zero => rfl
  | succ m ih => simp [List.replicate_succ, ih]

theorem nonemptyList_replicate_nil {α : Type} (n : Nat) :
    nonemptyList (List.replicate n ([] : List α)) = 0 := by
  induction n with
  | zero => rfl
  | succ m ih => simp [List.replicate_succ, nonemptyList_cons, ih]

theorem WF_new (size : Nat) (t : hashtable)
    (h : hashtable_newhashtable size = some t) : WF t := by
  by_cases hs : size < 2
  · simp [hashtable_newhashtable, hs] at h
  · simp [hashtable_newhashtable, hs] at h
    rw [← h]
    refine ⟨by simp, ?_⟩
    show 2 ≤ size
    omega

theorem Inv_new (size : Nat) (t : hashtable)
    (h : hashtable_newhashtable size = some t) : Inv t := by
  by_cases hs : size < 2
  · simp [hashtable_newhashtable, hs] at h
  · simp [hashtable_newhashtable, hs] at h
    rw [← h]
    unfold Inv nonemptyCount entriesCount
    dsimp only
    rw [nonemptyList_replicate_nil, sum_replicate_nil]
    simp

theorem WF_Inv_applyOps (t : hashtable) (ops : List Op)
    (h : WF t ∧ Inv t) :
    WF (applyOps t ops) ∧ Inv (applyOps t ops) := by
  induction ops generalizing t with
  | nil => exact h
  | cons op rest ih =>
    have h2 : WF (applyOp t op) ∧ Inv (applyOp t op) := by
      cases op with
      | ins k v => exact ⟨WF_insert _ k v h.1, Inv_insert _ k v h.1 h.2⟩
      | del k => exact ⟨WF_delete _ k h.1, Inv_delete _ k h.1 h.2⟩
    simpa [applyOps, List.foldl_cons] using ih (applyOp t op) h2

/-! ### Insert and lookup interaction -/

theorem insert_size (t : hashtable) (k : String) (v : Nat) :
    (hashtable_insert t k v).size = t.size := by
  rw [insert_char]

theorem getD_replicate_nil {α : Type} (n i : Nat) :
    (List.replicate n ([] : List α)).getD i [] = [] := by
  induction n generalizing i with
  | zero => rfl
  | succ m ih =>
    cases i with
    | zero => rfl
    | succ j => exact ih j

theorem not_hasKey_new (size : Nat) (t : hashtable) (k : String)
    (h : hashtable_newhashtable size = some t) : ¬ hasKey t k := by
  by_cases hs : size < 2
  · simp [hashtable_newhashtable, hs] at h
  · simp [hashtable_newhashtable, hs] at h
    rw [← h]
    unfold hasKey
    dsimp only
    rw [getD_replicate_nil]
    simp [chain_contains]

theorem bucket_after_insert (t : hashtable) (k : String) (v : Nat)
    (hWF : WF t) :
    (hashtable_insert t k v).table.getD (hashtable_gethash t.size k) []
      = (if (t.table.getD (hashtable_gethash t.size k) []).isEmpty
         then [⟨k, v⟩]
         else if chain_contains (t.table.getD (hashtable_gethash t.size k) []) k
         then chain_update (t.table.getD (hashtable_gethash t.size k) []) k v
         else t.table.getD (hashtable_gethash t.size k) [] ++ [⟨k, v⟩]) := by
  obtain ⟨hlen, hsz⟩ := hWF
  have hhlt : hashtable_gethash t.size k < t.table.length := by
    rw [hlen]
    exact gethash_lt _ _ (by omega)
  rw [insert_char]
  exact getD_set_self _ _ _ _ hhlt

theorem contains_bucket_after_insert (t : hashtable) (k : String) (v : Nat)
    (hWF : WF t) :
    chain_contains
      ((hashtable_insert t k v).table.getD
        (hashtable_gethash (hashtable_insert t k v).size k) []) k = true := by
  rw [insert_size, bucket_after_insert t k v hWF]
  cases he : (t.table.getD (hashtable_gethash t.size k) []).isEmpty with
  | true =>
    simp [chain_contains_cons, chain_contains_nil]
  | false =>
    cases hc : chain_contains (t.table.getD (hashtable_gethash t.size k) [])
        k with
    | true =>
      simp only [Bool.false_eq_true, if_false, if_true, eq_self_iff_true]
      rw [chain_contains_update]
      exact hc
    | false =>
      simp only [Bool.false_eq_true, if_false]
      rw [chain_contains_append_one]
      simp

theorem contains_of_hasKey_ne (t : hashtable) (k q : String) (v : Nat)
    (hWF : WF t) (hk : q ≠ k) :
    chain_contains
      ((hashtable_insert t k v).table.getD
        (hashtable_gethash (hashtable_insert t k v).size q) []) q
      = chain_contains (t.table.getD (hashtable_gethash t.size q) []) q := by
  obtain ⟨hlen, hsz⟩ := hWF
  have hhlt : hashtable_gethash t.size k < t.table.length := by
    rw [hlen]
    exact gethash_lt _ _ (by omega)
  rw [insert_size]
  by_cases hij : hashtable_gethash t.size q = hashtable_gethash t.size k
  · rw [insert_char]
    dsimp only
    rw [hij, getD_set_self _ _ _ _ hhlt]
    cases he : (t.table.getD (hashtable_gethash t.size k) []).isEmpty with
    | true =>
      have hnil := List.isEmpty_eq_true.mp he
      rw [hnil]
      simp [chain_contains_cons, chain_contains_nil]
      exact fun hqk => absurd hqk.symm hk
    | false =>
      cases hc : chain_contains (t.table.getD (hashtable_gethash t.size k) [])
          k with
      | true =>
        simp only [Bool.false_eq_true, if_false, if_true, eq_self_iff_true]
        rw [chain_contains_update]
      | false =>
        simp only [Bool.false_eq_true, if_false]
        rw [chain_contains_append_one]
        have : (k == q) = false := by
          simp
          exact fun hkq => absurd hkq.symm hk
        simp [this]
  · rw [insert_char]
    dsimp only
    rw [getD_set_ne _ _ _ _ _ (fun hc => hij hc.symm)]

theorem entriesCount_insert_not_present (t : hashtable) (k : String)
    (v : Nat) (hWF : WF t) (h : ¬ hasKey t k) :
    entriesCount (hashtable_insert t k v) = entriesCount t + 1 := by
  obtain ⟨hlen, hsz⟩ := hWF
  unfold hasKey at h
  have hcon : chain_contains (t.table.getD (hashtable_gethash t.size k) []) k
      = false := by
    cases hcb : chain_contains (t.table.getD (hashtable_gethash t.size k) [])
        k with
    | true => exact absurd hcb h
    | false => rfl
  have hhlt : hashtable_gethash t.size k < t.table.length := by
    rw [hlen]
    exact gethash_lt _ _ (by omega)
  rw [insert_char]
  unfold entriesCount
  dsimp only
  set i := hashtable_gethash t.size k with hi
  set c := t.table.getD i [] with hch
  cases he : c.isEmpty with
  | true =>
    have hnil := List.isEmpty_eq_true.mp he
    have hsum := sum_map_length_set t.table i [⟨k, v⟩] hhlt
    rw [← hch, hnil] at hsum
    simp only [List.length_nil, List.length_cons] at hsum
    simp only [eq_self_iff_true, if_true]
    omega
  | false =>
    rw [hcon]
    simp only [Bool.false_eq_true, if_false]
    have hsum := sum_map_length_set t.table i (c ++ [⟨k, v⟩]) hhlt
    rw [← hch] at hsum
    simp only [List.length_append, List.length_cons, List.length_nil] at hsum
    omega

theorem entriesCount_insertList (t : hashtable) (ps : List (String × Nat))
    (hWF : WF t) (hnodup : (ps.map Prod.fst).Nodup)
    (habs : ∀ p ∈ ps, ¬ hasKey t p.1) :
    entriesCount (insertList t ps) = entriesCount t + ps.length := by
  induction ps generalizing t with
  | nil => rfl
  | cons p rest ih =>
    have hnodup' : (p.1 :: rest.map Prod.fst).Nodup := by
      simpa only [List.map_cons] using hnodup
    have hmem := List.nodup_cons.mp hnodup'
    have h1 : entriesCount (hashtable_insert t p.1 p.2)
        = entriesCount t + 1 :=
      entriesCount_insert_not_present t p.1 p.2 hWF
        (habs p (List.mem_cons_self p rest))
    have habs2 : ∀ q ∈ rest, ¬ hasKey (hashtable_insert t p.1 p.2) q.1 := by
      intro q hq
      have hqk : q.1 ≠ p.1 := by
        intro hqp
        exact hmem.1 (hqp ▸ List.mem_map_of_mem Prod.fst hq)
      unfold hasKey
      rw [contains_of_hasKey_ne t p.1 q.1 p.2 hWF hqk]
      exact habs q (List.mem_cons_of_mem p hq)
    have := ih (hashtable_insert t p.1 p.2) (WF_insert t p.1 p.2 hWF)
      hmem.2 habs2
    simp only [insertList, List.foldl_cons] at this ⊢
    rw [this, h1]
    simp [List.length_cons]
    omega

theorem insertList_eq_applyOps (t : hashtable) (ps : List (String × Nat)) :
    insertList t ps = applyOps t (ps.map (fun p => Op.ins p.1 p.2)) := by
  induction ps generalizing t with
  | nil => rfl
  | cons p rest ih =>
    simp only [insertList, List.foldl_cons, List.map_cons, applyOps]
    exact ih (hashtable_insert t p.1 p.2)

/-! ### Claim theorems -/

/-- C3 (counterexample): the claim that the hash is the pure Horner fold
`h = (c + h*33) mod m` for every bucket count `m > 0` fails at
`m = 4294967295` and key `"zzzzzz"`: the C code's `unsigned int`
accumulator wraps modulo `2^32` before the `% m`, giving 628754332 where
the pure fold gives 628754333. -/
theorem claim_C3_counterexample :
    hashtable_gethash 4294967295 "zzzzzz"
      ≠ specHornerHash 4294967295 "zzzzzz" := by
  decide

/-- C3 (amended): for every bucket count `m > 0` and key, the hash is
deterministic and in `[0, m)`, the empty string hashes to 0, and whenever
`m ≤ 2^26` (so that `c + h*33` cannot reach `2^32`) it equals the spec's
Horner fold `h = (c + h*33) mod m` applied after every character. -/
theorem claim_C3 (m : Nat) (key : String) (hm : 0 < m) :
    hashtable_gethash m key < m ∧
    hashtable_gethash m "" = 0 ∧
    (m ≤ 67108864 → hashtable_gethash m key = specHornerHash m key) :=
  ⟨gethash_lt m key hm, gethash_empty m,
   fun hle => gethash_eq_spec m key hm hle⟩

/-- Witness for C3 at `m = 16`, key `"8ct4xaucod"`. -/
theorem claim_C3_witness :
    hashtable_gethash 16 "8ct4xaucod" < 16 ∧
    hashtable_gethash 16 "" = 0 ∧
    hashtable_gethash 16 "8ct4xaucod" = specHornerHash 16 "8ct4xaucod" :=
  ⟨(claim_C3 16 "8ct4xaucod" (by decide)).1,
   (claim_C3 16 "8ct4xaucod" (by decide)).2.1,
   (claim_C3 16 "8ct4xaucod" (by decide)).2.2 (by decide)⟩

/-- C7: `hashtable_newhashtable size` fails (returns NULL) exactly when
`size < 2`; on success the table has `size` buckets, all empty, and both
counters zero. -/
theorem claim_C7 (size : Nat) :
    (hashtable_newhashtable size = none ↔ size < 2) ∧
    (∀ t, hashtable_newhashtable size = some t →
      t.size = size ∧ t.different_entries = 0 ∧ t.collisions = 0 ∧
      t.table.length = size ∧ ∀ c ∈ t.table, c = []) := by
  constructor
  · constructor
    · intro h
      by_cases hs : size < 2
      · exact hs
      · simp [hashtable_newhashtable, hs] at h
    · intro hs
      simp [hashtable_newhashtable, hs]
  · intro t h
    by_cases hs : size < 2
    · simp [hashtable_newhashtable, hs] at h
    · simp [hashtable_newhashtable, hs] at h
      rw [← h]
      refine ⟨rfl, rfl, rfl, by simp, ?_⟩
      intro c hc
      exact List.eq_of_mem_replicate hc

/-- Witness for C7: size 1 fails, size 2 succeeds with the expected
table. -/
theorem claim_C7_witness :
    hashtable_newhashtable 1 = none ∧
    ((⟨2, 0, 0, [[], []]⟩ : hashtable).size = 2 ∧
     (⟨2, 0, 0, [[], []]⟩ : hashtable).different_entries = 0 ∧
     (⟨2, 0, 0, [[], []]⟩ : hashtable).collisions = 0 ∧
     (⟨2, 0, 0, [[], []]⟩ : hashtable).table.length = 2 ∧
     ∀ c ∈ (⟨2, 0, 0, [[], []]⟩ : hashtable).table, c = []) :=
  ⟨(claim_C7 1).1.mpr (by decide),
   (claim_C7 2).2 ⟨2, 0, 0, [[], []]⟩ (by rfl)⟩

/-- C8: insert, delete and lookup with a NULL key fail (NULL entry /
value 0 / NULL entry respectively) and leave the table completely
unchanged. -/
theorem claim_C8 (t : hashtable) (v : Nat) :
    hashtable_insert_c (some t) none v = (some t, none) ∧
    hashtable_delete_c (some t) none = (some t, 0) ∧
    hashtable_get_c (some t) none = none :=
  ⟨rfl, rfl, rfl⟩

/-- C9: insert mutates at most the chain at the key's bucket index: every
other bucket is unchanged, and the table size is unchanged. -/
theorem claim_C9 (t : hashtable) (k : String) (v : Nat) (j : Nat)
    (hj : j ≠ hashtable_gethash t.size k) :
    (hashtable_insert t k v).table.getD j [] = t.table.getD j [] ∧
    (hashtable_insert t k v).size = t.size := by
  constructor
  · rw [insert_char]
    exact getD_set_ne _ _ _ _ _ (Ne.symm hj)
  · exact insert_size t k v

/-- Witness for C9: inserting `"a"` (bucket 1) into a fresh 4-bucket table
leaves bucket 0 empty. -/
theorem claim_C9_witness :
    (hashtable_insert ⟨4, 0, 0, [[], [], [], []]⟩ "a" 7).table.getD 0 []
        = ([] : List hashtable_entry) ∧
    (hashtable_insert ⟨4, 0, 0, [[], [], [], []]⟩ "a" 7).size = 4 :=
  claim_C9 ⟨4, 0, 0, [[], [], [], []]⟩ "a" 7 0 (by decide)

/-- C1 (counterexample): inserting the test's 12 pairwise-distinct
10-character keys into a fresh table of size 16 yields
`different_entries = 8` (the number of occupied buckets), not 12: the
counter does not count unique keys. -/
theorem claim_C1_counterexample :
    ¬ ((insertList ⟨16, 0, 0, List.replicate 16 []⟩
        [("8ct4xaucod", 0), ("7i2pefipwc", 0), ("mmnoy7c6yq", 0),
         ("ouam4phm2c", 0), ("e2xztziqtj", 0), ("wrrw5arl6d", 0),
         ("7lc5pgl8kd", 0), ("93i5i8sx17", 0), ("6kkd8e0zq1", 0),
         ("yeqmy6bjmk", 0), ("hn1gybiuy6", 0),
         ("5wr2vyui8t", 0)]).different_entries = 12) := by
  decide

/-- C1 (amended): after inserting `n` pairwise-distinct keys into a fresh
table (no deletes), `different_entries` equals the number of non-empty
buckets, the table holds `n` entries in total, and
`different_entries + collisions = n`; in particular the 12 test keys in a
table of size 16 give `different_entries = 8` and `collisions = 4`. -/
theorem claim_C1 (size : Nat) (t0 : hashtable) (ps : List (String × Nat))
    (h : hashtable_newhashtable size = some t0)
    (hnodup : (ps.map Prod.fst).Nodup) :
    ((insertList t0 ps).different_entries
        = nonemptyCount (insertList t0 ps) ∧
     entriesCount (insertList t0 ps) = ps.length ∧
     (insertList t0 ps).different_entries + (insertList t0 ps).collisions
        = ps.length) ∧
    ((insertList ⟨16, 0, 0, List.replicate 16 []⟩
        [("8ct4xaucod", 0), ("7i2pefipwc", 0), ("mmnoy7c6yq", 0),
         ("ouam4phm2c", 0), ("e2xztziqtj", 0), ("wrrw5arl6d", 0),
         ("7lc5pgl8kd", 0), ("93i5i8sx17", 0), ("6kkd8e0zq1", 0),
         ("yeqmy6bjmk", 0), ("hn1gybiuy6", 0),
         ("5wr2vyui8t", 0)]).different_entries = 8 ∧
     (insertList ⟨16, 0, 0, List.replicate 16 []⟩
        [("8ct4xaucod", 0), ("7i2pefipwc", 0), ("mmnoy7c6yq", 0),
         ("ouam4phm2c", 0), ("e2xztziqtj", 0), ("wrrw5arl6d", 0),
         ("7lc5pgl8kd", 0), ("93i5i8sx17", 0), ("6kkd8e0zq1", 0),
         ("yeqmy6bjmk", 0), ("hn1gybiuy6", 0),
         ("5wr2vyui8t", 0)]).collisions = 4) := by
  have hwi := WF_Inv_applyOps t0 (ps.map fun p => Op.ins p.1 p.2)
    ⟨WF_new size t0 h, Inv_new size t0 h⟩
  rw [← insertList_eq_applyOps] at hwi
  have hent := entriesCount_insertList t0 ps (WF_new size t0 h) hnodup
    (fun p _ => not_hasKey_new size t0 p.1 h)
  have hent0 : entriesCount t0 = 0 := by
    by_cases hs : size < 2
    · simp [hashtable_newhashtable, hs] at h
    · simp [hashtable_newhashtable, hs] at h
      rw [← h]
      unfold entriesCount
      exact sum_replicate_nil size
  obtain ⟨hde, hcol⟩ := hwi.2
  refine ⟨⟨hde, by omega, by omega⟩, by decide, by decide⟩

/-- Witness for C1 at size 16 with two distinct keys. -/
theorem claim_C1_witness :
    (insertList ⟨16, 0, 0, List.replicate 16 []⟩
        [("abc", 1), ("xyz", 2)]).different_entries
      = nonemptyCount (insertList ⟨16, 0, 0, List.replicate 16 []⟩
        [("abc", 1), ("xyz", 2)]) ∧
    entriesCount (insertList ⟨16, 0, 0, List.replicate 16 []⟩
        [("abc", 1), ("xyz", 2)]) = 2 ∧
    (insertList ⟨16, 0, 0, List.replicate 16 []⟩
        [("abc", 1), ("xyz", 2)]).different_entries
      + (insertList ⟨16, 0, 0, List.replicate 16 []⟩
        [("abc", 1), ("xyz", 2)]).collisions = 2 :=
  (claim_C1 16 ⟨16, 0, 0, List.replicate 16 []⟩ [("abc", 1), ("xyz", 2)]
    (by rfl) (by decide)).1

/-- C2: for every table reachable from `hashtable_newhashtable` by any
sequence of inserts and deletes, `different_entries` is the number of
non-empty buckets, `collisions` is the total entry count minus the number
of non-empty buckets, and the total entry count equals
`different_entries + collisions`. -/
theorem claim_C2 (size : Nat) (t0 : hashtable) (ops : List Op)
    (h : hashtable_newhashtable size = some t0) :
    (applyOps t0 ops).different_entries = nonemptyCount (applyOps t0 ops) ∧
    (applyOps t0 ops).collisions
      = entriesCount (applyOps t0 ops) - nonemptyCount (applyOps t0 ops) ∧
    entriesCount (applyOps t0 ops)
      = (applyOps t0 ops).different_entries + (applyOps t0 ops).collisions := by
  have hwi := WF_Inv_applyOps t0 ops ⟨WF_new size t0 h, Inv_new size t0 h⟩
  obtain ⟨hde, hcol⟩ := hwi.2
  exact ⟨hde, by omega, by omega⟩

/-- Witness for C2: size 2, one insert then one delete. -/
theorem claim_C2_witness :
    (applyOps ⟨2, 0, 0, [[], []]⟩
        [Op.ins "a" 5, Op.del "a"]).different_entries
      = nonemptyCount (applyOps ⟨2, 0, 0, [[], []]⟩
        [Op.ins "a" 5, Op.del "a"]) ∧
    (applyOps ⟨2, 0, 0, [[], []]⟩ [Op.ins "a" 5, Op.del "a"]).collisions
      = entriesCount (applyOps ⟨2, 0, 0, [[], []]⟩
          [Op.ins "a" 5, Op.del "a"])
        - nonemptyCount (applyOps ⟨2, 0, 0, [[], []]⟩
          [Op.ins "a" 5, Op.del "a"]) ∧
    entriesCount (applyOps ⟨2, 0, 0, [[], []]⟩ [Op.ins "a" 5, Op.del "a"])
      = (applyOps ⟨2, 0, 0, [[], []]⟩
          [Op.ins "a" 5, Op.del "a"]).different_entries
        + (applyOps ⟨2, 0, 0, [[], []]⟩
          [Op.ins "a" 5, Op.del "a"]).collisions :=
  claim_C2 2 ⟨2, 0, 0, [[], []]⟩ [Op.ins "a" 5, Op.del "a"] (by rfl)

/-- C4: insert acts on the key's bucket by exactly one of three cases:
empty bucket — new sole entry and `different_entries + 1`; key present —
value overwritten in place (keys and positions of the chain unchanged,
no counter change); key absent in a non-empty bucket — new entry appended
at the tail and `collisions + 1`. -/
theorem claim_C4 (t : hashtable) (k : String) (v : Nat) :
    ((t.table.getD (hashtable_gethash t.size k) []) = [] →
      hashtable_insert t k v =
        { t with
          table := t.table.set (hashtable_gethash t.size k) [⟨k, v⟩],
          different_entries := t.different_entries + 1 }) ∧
    (chain_contains (t.table.getD (hashtable_gethash t.size k) []) k
        = true →
      hashtable_insert t k v =
        { t with
          table := t.table.set (hashtable_gethash t.size k)
            (chain_update (t.table.getD (hashtable_gethash t.size k) [])
              k v) } ∧
      (chain_update (t.table.getD (hashtable_gethash t.size k) []) k v).map
          hashtable_entry.key
        = (t.table.getD (hashtable_gethash t.size k) []).map
            hashtable_entry.key) ∧
    ((t.table.getD (hashtable_gethash t.size k) []) ≠ [] →
      chain_contains (t.table.getD (hashtable_gethash t.size k) []) k
        = false →
      hashtable_insert t k v =
        { t with
          table := t.table.set (hashtable_gethash t.size k)
            ((t.table.getD (hashtable_gethash t.size k) []) ++ [⟨k, v⟩]),
          collisions := t.collisions + 1 }) := by
  refine ⟨?_, ?_, ?_⟩
  · intro hnil
    rw [insert_char, hnil]
    simp only [List.isEmpty_nil, eq_self_iff_true, if_true, Bool.true_or]
  · intro hc
    have hnenil : (t.table.getD (hashtable_gethash t.size k) []) ≠ [] := by
      intro hnil
      rw [hnil] at hc
      simp [chain_contains] at hc
    have he : (t.table.getD (hashtable_gethash t.size k) []).isEmpty
        = false := List.isEmpty_eq_false.mpr hnenil
    constructor
    · rw [insert_char, he, hc]
      simp only [Bool.false_eq_true, if_false, Bool.false_or,
        eq_self_iff_true, if_true]
    · exact chain_update_keys _ k v
  · intro hnenil hc
    have he : (t.table.getD (hashtable_gethash t.size k) []).isEmpty
        = false := List.isEmpty_eq_false.mpr hnenil
    rw [insert_char, he, hc]
    simp only [Bool.false_eq_true, if_false, Bool.false_or]

/-- Witness for C4: inserting into an empty bucket of a fresh 4-bucket
table. -/
theorem claim_C4_witness :
    hashtable_insert ⟨4, 0, 0, [[], [], [], []]⟩ "a" 7
      = ⟨4, 1, 0, [[], [⟨"a", 7⟩], [], []]⟩ :=
  (claim_C4 ⟨4, 0, 0, [[], [], [], []]⟩ "a" 7).1 (by decide)

/-- C5: delete returns 0 and leaves the table unchanged when the key is
absent; when the key's chain is `pre ++ e :: suf` with `e` the first match,
delete returns `e.val` and replaces the chain by `pre ++ suf` (sole member:
bucket cleared and `different_entries` decremented; otherwise — head
promoted or mid-chain spliced — `collisions` decremented). -/
theorem claim_C5 (t : hashtable) (k : String) (hWF : WF t) (hInv : Inv t) :
    (chain_contains (t.table.getD (hashtable_gethash t.size k) []) k
        = false →
      hashtable_delete t k = (t, 0)) ∧
    (∀ pre e suf,
      t.table.getD (hashtable_gethash t.size k) [] = pre ++ e :: suf →
      (e.key == k) = true →
      (∀ x ∈ pre, (x.key == k) = false) →
      (hashtable_delete t k).2 = e.val ∧
      (hashtable_delete t k).1.size = t.size ∧
      (hashtable_delete t k).1.table
        = t.table.set (hashtable_gethash t.size k) (pre ++ suf) ∧
      (pre ++ suf = [] →
        (hashtable_delete t k).1.different_entries + 1
          = t.different_entries ∧
        (hashtable_delete t k).1.collisions = t.collisions) ∧
      (pre ++ suf ≠ [] →
        (hashtable_delete t k).1.collisions + 1 = t.collisions ∧
        (hashtable_delete t k).1.different_entries
          = t.different_entries)) := by
  obtain ⟨hlen, hsz⟩ := hWF
  obtain ⟨hde, hcol⟩ := hInv
  unfold nonemptyCount at hde
  unfold nonemptyCount entriesCount at hcol
  have hhlt : hashtable_gethash t.size k < t.table.length := by
    rw [hlen]
    exact gethash_lt _ _ (by omega)
  constructor
  · intro hmiss
    exact delete_not_found t k hmiss
  · intro pre e suf hdec hek hpre
    have hcd : chain_delete (t.table.getD (hashtable_gethash t.size k) []) k
        = (pre ++ suf, some e.val) := by
      rw [hdec]
      exact chain_delete_decomp pre e suf k hek hpre
    by_cases hempty : pre ++ suf = []
    · have hprenil : pre = [] := by
        cases pre with
        | nil => rfl
        | cons a as => simp at hempty
      have hsufnil : suf = [] := by
        rw [hprenil] at hempty
        simpa using hempty
      rw [hempty] at hcd
      rw [delete_found_sole t k e.val hcd]
      dsimp only
      have hce : (t.table.getD (hashtable_gethash t.size k) []).isEmpty
          = false := by
        rw [hdec, hprenil, hsufnil]
        rfl
      have hnepos := nonemptyList_pos t.table (hashtable_gethash t.size k)
        hce
      refine ⟨rfl, rfl, by rw [hempty], ?_, ?_⟩
      · intro _
        exact ⟨by omega, rfl⟩
      · intro hcontra
        exact absurd hempty hcontra
    · have hne2 : (pre ++ suf).isEmpty = false :=
        List.isEmpty_eq_false.mpr hempty
      rw [delete_found_more t k (pre ++ suf) e.val hcd hne2]
      dsimp only
      have hps : (pre ++ suf).length ≠ 0 := by
        intro h0
        exact hempty (List.length_eq_zero.mp h0)
      rw [List.length_append] at hps
      have hlen2 : 2 ≤ (t.table.getD (hashtable_gethash t.size k) []).length := by
        rw [hdec, List.length_append, List.length_cons]
        omega
      have hcolpos := nonemptyList_add_one_le_sum t.table
        (hashtable_gethash t.size k) hlen2
      refine ⟨rfl, rfl, rfl, ?_, ?_⟩
      · intro hcontra
        exact absurd hcontra hempty
      · intro _
        exact ⟨by omega, rfl⟩

/-- Witness for C5: deleting the sole entry of a bucket clears it and
decrements `different_entries`. -/
theorem claim_C5_witness :
    (hashtable_delete ⟨2, 1, 0, [[], [⟨"a", 5⟩]]⟩ "a").2 = 5 ∧
    (hashtable_delete ⟨2, 1, 0, [[], [⟨"a", 5⟩]]⟩
        "a").1.different_entries + 1 = 1 := by
  have h := (claim_C5 ⟨2, 1, 0, [[], [⟨"a", 5⟩]]⟩ "a"
      ⟨by decide, by decide⟩ ⟨by decide, by decide⟩).2
    [] ⟨"a", 5⟩ [] (by decide) (by decide) (by simp)
  exact ⟨h.1, (h.2.2.2.1 rfl).1⟩

/-- C6: a second insert with the same key is an update: afterwards get
returns the new value and both counters are unchanged from their values
after the first insert. -/
theorem claim_C6 (t : hashtable) (k : String) (v1 v2 : Nat) (hWF : WF t) :
    hashtable_get (hashtable_insert (hashtable_insert t k v1) k v2) k
      = some ⟨k, v2⟩ ∧
    (hashtable_insert (hashtable_insert t k v1) k v2).different_entries
      = (hashtable_insert t k v1).different_entries ∧
    (hashtable_insert (hashtable_insert t k v1) k v2).collisions
      = (hashtable_insert t k v1).collisions := by
  have hWF1 := WF_insert t k v1 hWF
  have h1 := contains_bucket_after_insert t k v1 hWF
  set t1 := hashtable_insert t k v1 with ht1
  have hbne : t1.table.getD (hashtable_gethash t1.size k) [] ≠ [] := by
    intro hnil
    rw [hnil] at h1
    simp [chain_contains] at h1
  have he1 : (t1.table.getD (hashtable_gethash t1.size k) []).isEmpty
      = false := List.isEmpty_eq_false.mpr hbne
  refine ⟨?_, ?_, ?_⟩
  · unfold hashtable_get
    rw [insert_size t1 k v2]
    rw [bucket_after_insert t1 k v2 hWF1]
    rw [he1, h1]
    simp only [Bool.false_eq_true, if_false, eq_self_iff_true, if_true]
    exact chain_find_update_self _ _ _ h1
  · rw [insert_char t1 k v2]
    dsimp only
    rw [he1]
    simp only [Bool.false_eq_true, if_false]
  · rw [insert_char t1 k v2]
    dsimp only
    rw [he1, h1]
    simp only [Bool.false_or, eq_self_iff_true, if_true]

/-- Witness for C6: two inserts of `"a"` into a fresh 4-bucket table. -/
theorem claim_C6_witness :
    hashtable_get (hashtable_insert (hashtable_insert
        ⟨4, 0, 0, [[], [], [], []]⟩ "a" 3) "a" 9) "a" = some ⟨"a", 9⟩ ∧
    (hashtable_insert (hashtable_insert ⟨4, 0, 0, [[], [], [], []]⟩ "a" 3)
        "a" 9).different_entries = 1 ∧
    (hashtable_insert (hashtable_insert ⟨4, 0, 0, [[], [], [], []]⟩ "a" 3)
        "a" 9).collisions = 0 := by
  have h := claim_C6 ⟨4, 0, 0, [[], [], [], []]⟩ "a" 3 9
    ⟨by decide, by decide⟩
  exact ⟨h.1, h.2.1, h.2.2⟩

/-- C10: with a NULL table argument every operation fails without
mutating anything: insert and get return no entry, delete returns 0. -/
theorem claim_C10 (k : Option String) (v : Nat) :
    hashtable_insert_c none k v = (none, none) ∧
    hashtable_delete_c none k = (none, 0) ∧
    hashtable_get_c none k = none :=
  ⟨rfl, rfl, rfl⟩

end StringHashTable
